import Mathlib

/-
  Verification of the template-matching core in src/tpl/tpl.cpp.

  The embedding follows the source line by line:
  * tpl::integral (lines 38-49) builds the integral image; it is modelled by
    rowPref (the running row sum s) and integralCell (the written cell).
  * main (lines 93-165) runs the scan over window positions, keeps a bounded
    candidate deque, and refines by brute-force SAD.
  Machine integers stay well inside 32-bit range for the image sizes the
  claims quantify over, so cells and diffs are modelled by Int and the SAD
  accumulator (an unsigned long long in the source) by Nat.  The float
  confidence is modelled exactly by Rat; none of the claims concerns
  floating-point rounding.
-/

namespace Tpl

/-- A decoded raster image: width, height, and a per-channel pixel
function.  Channel values are bytes of the source Vec3b, hence Nat. -/
structure Img where
  w : Nat
  h : Nat
  pix : Nat → Nat → Fin 3 → Nat

/-- Sum of the three channel values of one pixel, as accumulated at
tpl.cpp line 44: s += c.val[0] + c.val[1] + c.val[2]. -/
def pixSum (m : Img) (x y : Nat) : Int :=
  (m.pix x y 0 : Int) + (m.pix x y 1 : Int) + (m.pix x y 2 : Int)

/-- The running row sum s of tpl::integral after processing column x of
row y (tpl.cpp lines 41-44). -/
def rowPref (m : Img) (y : Nat) : Nat → Int
  | 0 => pixSum m 0 y
  | x + 1 => rowPref m y x + pixSum m (x + 1) y

/-- The integral-image cell written by tpl::integral at column x, row y
(tpl.cpp lines 45-46): the row sum plus the cell one row above. -/
def integralCell (m : Img) : Nat → Nat → Int
  | x, 0 => rowPref m 0 x
  | x, y + 1 => rowPref m (y + 1) x + integralCell m x y

/-- The needle total ns read at tpl.cpp line 99: the bottom-right cell of
the needle integral image. -/
def needleTotal (nee : Img) : Int :=
  integralCell nee (nee.w - 1) (nee.h - 1)

/-- The four-lookup window sum s of tpl.cpp lines 106-109, with nw, nh the
needle dimensions and (x, y) the scan position. -/
def windowSum (hay : Img) (nw nh x y : Nat) : Int :=
  integralCell hay x y + integralCell hay (x + nw) (y + nh)
    - integralCell hay x (y + nh) - integralCell hay (x + nw) y

/-- The candidate struct item of tpl.cpp lines 56-72. -/
structure Item where
  diff : Int
  x : Nat
  y : Nat
  sum : Int
deriving DecidableEq

instance : Inhabited Item := ⟨⟨0, 0, 0, 0⟩⟩

/-- The candidate built at tpl.cpp lines 111-112 for scan position (x, y). -/
def mkItem (hay nee : Img) (x y : Nat) : Item :=
  let s := windowSum hay nee.w nee.h x y
  ⟨|s - needleTotal nee|, x, y, s⟩

/-- The insertion loop of tpl.cpp lines 114-120: walk the deque and insert
the new item before the first element whose diff is strictly larger; if no
element is strictly larger the deque is left unchanged. -/
def tryInsert (itm : Item) : List Item → List Item
  | [] => []
  | c :: cs => if itm.diff < c.diff then itm :: c :: cs else c :: tryInsert itm cs

/-- The deque after the insertion attempt of tpl.cpp lines 113-123: a
push_front when the deque is empty, otherwise the insertion walk. -/
def preInsert (itm : Item) (l : List Item) : List Item :=
  if l = [] then [itm] else tryInsert itm l

/-- One full iteration of the scan body on the deque (tpl.cpp lines
112-127): insertion attempt, then pop_back when the size exceeds 50. -/
def step (itm : Item) (l : List Item) : List Item :=
  let d := preInsert itm l
  if 50 < d.length then d.dropLast else d

/-- One row of scan positions: the inner loop of tpl.cpp line 105. -/
def rowPositions (n y : Nat) : List (Nat × Nat) :=
  (List.range n).map fun x => (x, y)

/-- Scan positions of the first m rows, n columns each, in loop order. -/
def positionsAux (n : Nat) : Nat → List (Nat × Nat)
  | 0 => []
  | m + 1 => positionsAux n m ++ rowPositions n m

/-- All scan positions of the nested loops at tpl.cpp lines 104-105, in
execution order.  The loop bounds cols - ncols and rows - nrows are int
subtractions that yield an empty range when nonpositive; truncated Nat
subtraction models that exactly. -/
def scanPositions (W H nw nh : Nat) : List (Nat × Nat) :=
  positionsAux (W - nw) (H - nh)

/-- The candidates scored by the scan, in scan order. -/
def scanItems (hay nee : Img) : List Item :=
  (scanPositions hay.w hay.h nee.w nee.h).map fun p => mkItem hay nee p.1 p.2

/-- The candidate deque after the full scan of tpl.cpp lines 104-129. -/
def scan (hay nee : Img) : List Item :=
  (scanItems hay nee).foldl (fun d itm => step itm d) []

/-- The constant max of tpl.cpp line 133: needle.rows * needle.cols * 255 * 3. -/
def maxSAD (nee : Img) : Nat :=
  nee.h * nee.w * 255 * 3

/-- The brute-force sum of absolute differences accumulated at tpl.cpp
lines 144-153 for the window whose top-left corner is (x, y). -/
def sad (hay nee : Img) (x y : Nat) : Nat :=
  ∑ j ∈ Finset.range nee.h, ∑ i ∈ Finset.range nee.w, ∑ c : Fin 3,
    ((hay.pix (x + i) (y + j) c : Int) - (nee.pix i j c : Int)).natAbs

/-- INT_MAX, the initial value of min at tpl.cpp line 136. -/
def intMax : Nat := 2147483647

/-- The mutable state of the brute-force loop: min, rx, ry, result. -/
structure BState where
  mn : Nat
  rx : Int
  ry : Int
  res : Rat
deriving DecidableEq

/-- The brute-force refinement loop of tpl.cpp lines 143-164: for each
candidate compute the SAD, update (min, rx, ry, result) when strictly
smaller, and stop early on an exact pixel match. -/
def bruteLoop (hay nee : Img) : List Item → BState → BState
  | [], st => st
  | c :: cs, st =>
    let s := sad hay nee c.x c.y
    let st2 := if s < st.mn then
        BState.mk s (c.x : Int) (c.y : Int) (1 - (s : Rat) / (maxSAD nee : Rat))
      else st
    if s = 0 then st2 else bruteLoop hay nee cs st2

/-- The final match result: confidence and reported coordinates, with -1
as the not-found sentinel. -/
structure MatchRes where
  confidence : Rat
  x : Int
  y : Int
deriving DecidableEq

/-- The brute-force stage run from the non-shortcut initial state
(result = 0, rx = ry = -1, min = INT_MAX; tpl.cpp lines 135-165 with the
shortcut condition false). -/
def bruteForce (hay nee : Img) (deq : List Item) : MatchRes :=
  let st := bruteLoop hay nee deq (BState.mk intMax (-1) (-1) 0)
  MatchRes.mk st.res st.rx st.ry

/-- The whole matching operation of tpl.cpp lines 93-165: build the deque
by scanning, then either take the diff = 0 shortcut of lines 135-139 or
refine by brute force. -/
def matchRun (hay nee : Img) : MatchRes :=
  let deq := scan hay nee
  if deq ≠ [] ∧ deq.headI.diff = 0 then
    MatchRes.mk 1 (deq.headI.x : Int) (deq.headI.y : Int)
  else
    bruteForce hay nee deq

/-- Spec-side definition, taken from the wording of the window-sum claim:
the sum of all channel intensities obtained by direct iteration over the
pixels of the sub-rectangle with corner (x, y), width nw and height nh. -/
def directWindowSum (hay : Img) (nw nh x y : Nat) : Int :=
  ∑ j ∈ Finset.range nh, ∑ i ∈ Finset.range nw, pixSum hay (x + i) (y + j)

/-- Ascending order of candidates by diff, the order the deque keeps. -/
def leD (a b : Item) : Prop := a.diff ≤ b.diff

instance : DecidableRel leD := fun a b => inferInstanceAs (Decidable (a.diff ≤ b.diff))

/-- Ascending order by diff that breaks ties by an index f: consecutive
equal-diff candidates must appear in increasing f order.  With f the scan
discovery index this expresses stable, first-found-wins insertion. -/
def stableLe (f : Item → Nat) (a b : Item) : Prop :=
  a.diff ≤ b.diff ∧ (a.diff = b.diff → f a < f b)

/-- Discovery index of a candidate in the row-major scan. -/
def posIdx (hay nee : Img) (c : Item) : Nat :=
  c.y * (hay.w - nee.w) + c.x

/-- Concrete 2 by 2 image whose only nonzero pixel is (1, 1). -/
def hay2 : Img := Img.mk 2 2 (fun x y _ => if x = 1 ∧ y = 1 then 5 else 0)

/-- Concrete 1 by 1 needle with channel value 5. -/
def nee1 : Img := Img.mk 1 1 (fun _ _ _ => 5)

/-- Concrete 3 by 3 haystack holding a verbatim copy of nee1 at (1, 1). -/
def hay3 : Img := Img.mk 3 3 (fun x y _ => if x = 1 ∧ y = 1 then 5 else 9)

/-- Concrete uniform 4 by 2 haystack matching nee1 everywhere. -/
def hay4 : Img := Img.mk 4 2 (fun _ _ _ => 5)

/-- Concrete uniform 2 by 2 haystack matching nee1 everywhere. -/
def hayU : Img := Img.mk 2 2 (fun _ _ _ => 5)

/-- Concrete small 2 by 2 haystack for the oversized-needle case. -/
def hayS : Img := Img.mk 2 2 (fun _ _ _ => 7)

/-- Concrete 3 by 3 needle, larger than hayS in both dimensions. -/
def neeB : Img := Img.mk 3 3 (fun _ _ _ => 7)

lemma rowPref_eq (m : Img) (y x : Nat) :
    rowPref m y x = ∑ i ∈ Finset.range (x + 1), pixSum m i y := by
  induction x with
  | zero => simp [rowPref]
  | succ x ih =>
    rw [rowPref, ih, Finset.sum_range_succ (fun i => pixSum m i y) (x + 1)]

lemma integralCell_eq (m : Img) (x y : Nat) :
    integralCell m x y
      = ∑ j ∈ Finset.range (y + 1), ∑ i ∈ Finset.range (x + 1), pixSum m i j := by
  induction y with
  | zero => simp [integralCell, rowPref_eq]
  | succ y ih =>
    rw [integralCell, ih, rowPref_eq,
      Finset.sum_range_succ (fun j => ∑ i ∈ Finset.range (x + 1), pixSum m i j) (y + 1)]
    ring

/-- C5: for a raster image of nonzero width and height, every integral
cell equals the exact sum of all channel intensities of the pixels in the
rectangle from the origin up to and including that pixel, and the
bottom-right cell equals the total intensity sum of the whole image. -/
theorem C5_integral_correct (m : Img) (hw : 0 < m.w) (hh : 0 < m.h) :
    (∀ x y, x < m.w → y < m.h →
        integralCell m x y
          = ∑ j ∈ Finset.range (y + 1), ∑ i ∈ Finset.range (x + 1), pixSum m i j)
    ∧ integralCell m (m.w - 1) (m.h - 1)
        = ∑ j ∈ Finset.range m.h, ∑ i ∈ Finset.range m.w, pixSum m i j := by
  refine ⟨fun x y _ _ => integralCell_eq m x y, ?_⟩
  rw [integralCell_eq, Nat.sub_add_cancel hh, Nat.sub_add_cancel hw]

/-- Witness for C5 on the concrete image hay2. -/
theorem C5_witness :
    integralCell hay2 (2 - 1) (2 - 1)
      = ∑ j ∈ Finset.range 2, ∑ i ∈ Finset.range 2, pixSum hay2 i j :=
  (C5_integral_correct hay2 (by decide) (by decide)).2

lemma sum_range_diff (m : Img) (nw b j : Nat) :
    (∑ i ∈ Finset.range (b + nw + 1), pixSum m i j)
      - ∑ i ∈ Finset.range (b + 1), pixSum m i j
      = ∑ i ∈ Finset.range nw, pixSum m (b + 1 + i) j := by
  rw [← Finset.sum_Ico_eq_sub _ (by omega), Finset.sum_Ico_eq_sum_range,
    (by omega : b + nw + 1 - (b + 1) = nw)]

/-- C1 (amended): for every image and every window position, the
four-lookup window sum of the code equals the direct pixel sum over the
sub-rectangle shifted one pixel right and down, that is over columns
x + 1 .. x + nw and rows y + 1 .. y + nh, not over the sub-rectangle with
top-left corner (x, y) itself. -/
theorem C1_window_shifted (m : Img) (nw nh x y : Nat) :
    windowSum m nw nh x y
      = ∑ j ∈ Finset.range nh, ∑ i ∈ Finset.range nw, pixSum m (x + 1 + i) (y + 1 + j) := by
  have hrows : ∀ a : Nat,
      (∑ j ∈ Finset.range (y + nh + 1), ∑ i ∈ Finset.range (a + 1), pixSum m i j)
        - ∑ j ∈ Finset.range (y + 1), ∑ i ∈ Finset.range (a + 1), pixSum m i j
        = ∑ j ∈ Finset.range nh, ∑ i ∈ Finset.range (a + 1), pixSum m i (y + 1 + j) := by
    intro a
    rw [← Finset.sum_Ico_eq_sub _ (by omega), Finset.sum_Ico_eq_sum_range,
      (by omega : y + nh + 1 - (y + 1) = nh)]
  have expand : windowSum m nw nh x y
      = ((∑ j ∈ Finset.range (y + nh + 1), ∑ i ∈ Finset.range (x + nw + 1), pixSum m i j)
          - ∑ j ∈ Finset.range (y + 1), ∑ i ∈ Finset.range (x + nw + 1), pixSum m i j)
        - ((∑ j ∈ Finset.range (y + nh + 1), ∑ i ∈ Finset.range (x + 1), pixSum m i j)
          - ∑ j ∈ Finset.range (y + 1), ∑ i ∈ Finset.range (x + 1), pixSum m i j) := by
    unfold windowSum
    rw [integralCell_eq, integralCell_eq, integralCell_eq, integralCell_eq]
    ring
  rw [expand, hrows (x + nw), hrows x, ← Finset.sum_sub_distrib]
  exact Finset.sum_congr rfl fun j _ => sum_range_diff m nw x (y + 1 + j)

/-- C1 counterexample: on the concrete 2 by 2 image hay2 with a 1 by 1
window at (0, 0), fully inside the image, the four-lookup window sum is 15
while the direct pixel sum over that window is 0. -/
theorem C1_counterexample :
    0 + 1 ≤ hay2.w ∧ 0 + 1 ≤ hay2.h ∧
    windowSum hay2 1 1 0 0 = 15 ∧ directWindowSum hay2 1 1 0 0 = 0 ∧
    windowSum hay2 1 1 0 0 ≠ directWindowSum hay2 1 1 0 0 := by decide

lemma tryInsert_of_forall_le (itm : Item) :
    ∀ l : List Item, (∀ c ∈ l, c.diff ≤ itm.diff) → tryInsert itm l = l
  | [], _ => rfl
  | c :: cs, h => by
    rw [tryInsert, if_neg (not_lt.mpr (h c (List.mem_cons_self c cs))),
      tryInsert_of_forall_le itm cs (fun d hd => h d (List.mem_cons_of_mem c hd))]

lemma step_of_forall_le (itm : Item) (l : List Item) (hne : l ≠ [])
    (hlen : l.length ≤ 50) (h : ∀ c ∈ l, c.diff ≤ itm.diff) : step itm l = l := by
  have hpre : preInsert itm l = l := by
    rw [preInsert, if_neg hne, tryInsert_of_forall_le itm l h]
  simp only [step]
  rw [hpre, if_neg (by omega)]

lemma mem_tryInsert {itm d : Item} : ∀ {l : List Item}, d ∈ tryInsert itm l → d = itm ∨ d ∈ l := by
  intro l
  induction l with
  | nil => intro h; simp [tryInsert] at h
  | cons c cs ih =>
    intro h
    rw [tryInsert] at h
    by_cases hlt : itm.diff < c.diff
    · rw [if_pos hlt] at h
      rcases List.mem_cons.mp h with rfl | h2
      · exact Or.inl rfl
      · exact Or.inr h2
    · rw [if_neg hlt] at h
      rcases List.mem_cons.mp h with rfl | h2
      · exact Or.inr (List.mem_cons_self _ _)
      · rcases ih h2 with rfl | h3
        · exact Or.inl rfl
        · exact Or.inr (List.mem_cons_of_mem _ h3)

lemma mem_preInsert {itm d : Item} {l : List Item} (h : d ∈ preInsert itm l) :
    d = itm ∨ d ∈ l := by
  rw [preInsert] at h
  by_cases hl : l = []
  · rw [if_pos hl] at h
    simp at h
    exact Or.inl h
  · rw [if_neg hl] at h
    exact mem_tryInsert h

lemma mem_step {itm d : Item} {l : List Item} (h : d ∈ step itm l) :
    d = itm ∨ d ∈ l := by
  simp only [step] at h
  by_cases hc : 50 < (preInsert itm l).length
  · rw [if_pos hc] at h
    exact mem_preInsert ((List.dropLast_sublist _).subset h)
  · rw [if_neg hc] at h
    exact mem_preInsert h

lemma length_tryInsert (itm : Item) :
    ∀ l : List Item, (tryInsert itm l).length ≤ l.length + 1
  | [] => by simp [tryInsert]
  | c :: cs => by
    rw [tryInsert]
    by_cases hlt : itm.diff < c.diff
    · rw [if_pos hlt]
      simp
    · rw [if_neg hlt]
      have := length_tryInsert itm cs
      simp only [List.length_cons]
      omega

lemma length_preInsert (itm : Item) (l : List Item) :
    (preInsert itm l).length ≤ l.length + 1 := by
  rw [preInsert]
  by_cases hl : l = []
  · rw [if_pos hl]; simp
  · rw [if_neg hl]; exact length_tryInsert itm l

lemma length_step_le (itm : Item) (l : List Item) (h : l.length ≤ 50) :
    (step itm l).length ≤ 50 := by
  simp only [step]
  have hpre := length_preInsert itm l
  by_cases hc : 50 < (preInsert itm l).length
  · rw [if_pos hc, List.length_dropLast]
    omega
  · rw [if_neg hc]
    omega

lemma pairwise_tryInsert_le (itm : Item) :
    ∀ {l : List Item}, l.Pairwise leD → (tryInsert itm l).Pairwise leD := by
  intro l
  induction l with
  | nil => intro _; simp [tryInsert]
  | cons c cs ih =>
    intro h
    rcases List.pairwise_cons.mp h with ⟨hc, hcs⟩
    rw [tryInsert]
    by_cases hlt : itm.diff < c.diff
    · rw [if_pos hlt]
      refine List.Pairwise.cons ?_ h
      intro d hd
      rcases List.mem_cons.mp hd with rfl | hd2
      · exact le_of_lt hlt
      · exact le_trans (le_of_lt hlt) (hc d hd2)
    · rw [if_neg hlt]
      refine List.Pairwise.cons ?_ (ih hcs)
      intro d hd
      rcases mem_tryInsert hd with rfl | hd2
      · exact not_lt.mp hlt
      · exact hc d hd2

lemma pairwise_preInsert_le (itm : Item) (l : List Item) (h : l.Pairwise leD) :
    (preInsert itm l).Pairwise leD := by
  rw [preInsert]
  by_cases hl : l = []
  · rw [if_pos hl]; simp
  · rw [if_neg hl]; exact pairwise_tryInsert_le itm h

lemma pairwise_step_le (itm : Item) (l : List Item) (h : l.Pairwise leD) :
    (step itm l).Pairwise leD := by
  simp only [step]
  by_cases hc : 50 < (preInsert itm l).length
  · rw [if_pos hc]
    exact (pairwise_preInsert_le itm l h).sublist (List.dropLast_sublist _)
  · rw [if_neg hc]
    exact pairwise_preInsert_le itm l h

lemma tryInsert_perm (itm : Item) :
    ∀ {l : List Item}, (∃ c ∈ l, itm.diff < c.diff) → (tryInsert itm l).Perm (itm :: l) := by
  intro l
  induction l with
  | nil => intro h; simp at h
  | cons c cs ih =>
    intro h
    rw [tryInsert]
    by_cases hlt : itm.diff < c.diff
    · rw [if_pos hlt]
    · rw [if_neg hlt]
      have hcs : ∃ d ∈ cs, itm.diff < d.diff := by
        rcases h with ⟨d, hd, hlt2⟩
        rcases List.mem_cons.mp hd with rfl | hd2
        · exact absurd hlt2 hlt
        · exact ⟨d, hd2, hlt2⟩
      exact ((ih hcs).cons c).trans (List.Perm.swap itm c cs)

lemma preInsert_perm (itm : Item) (l : List Item)
    (h : l = [] ∨ ∃ c ∈ l, itm.diff < c.diff) : (preInsert itm l).Perm (itm :: l) := by
  rcases h with rfl | h2
  · simp [preInsert]
  · have hne : l ≠ [] := by
      rintro rfl
      simp at h2
    rw [preInsert, if_neg hne]
    exact tryInsert_perm itm h2

lemma pairwise_le_getLast :
    ∀ {l : List Item}, l.Pairwise leD → ∀ m ∈ l.getLast?, ∀ c ∈ l, c.diff ≤ m.diff := by
  intro l
  induction l with
  | nil => simp
  | cons a t ih =>
    intro h m hm c hc
    cases t with
    | nil =>
      have hma : a = m := by simpa using hm
      have hca : c = a := by simpa using hc
      rw [hca, ← hma]
    | cons b t2 =>
      rw [List.getLast?_cons_cons] at hm
      rcases List.pairwise_cons.mp h with ⟨ha, ht⟩
      rcases List.mem_cons.mp hc with rfl | hc2
      · exact ha m (List.mem_of_mem_getLast? hm)
      · exact ih ht m hm c hc2

lemma mem_positionsAux {n : Nat} :
    ∀ {m x y : Nat}, ((x, y) ∈ positionsAux n m ↔ x < n ∧ y < m) := by
  intro m
  induction m with
  | zero =>
    intro x y
    simp [positionsAux]
  | succ m ih =>
    intro x y
    simp only [positionsAux, List.mem_append, rowPositions, List.mem_map, List.mem_range]
    constructor
    · rintro (h | ⟨x2, hx2, heq⟩)
      · have := ih.mp h
        omega
      · rcases Prod.mk.injEq .. ▸ heq with ⟨rfl, rfl⟩
        omega
    · rintro ⟨hx, hy⟩
      by_cases hym : y < m
      · exact Or.inl (ih.mpr ⟨hx, hym⟩)
      · have : y = m := by omega
        exact Or.inr ⟨x, hx, by rw [this]⟩

/-- C4 counterexample: scanning the uniform 4 by 2 haystack hay4 for the
1 by 1 needle nee1 scores three window positions, all with equal diff 0,
yet the final candidate list keeps only the first of them although the
capacity 50 was never reached: a scored candidate whose diff is not
strictly below the diff of some stored candidate is dropped without
being inserted. -/
theorem C4_counterexample :
    (scanItems hay4 nee1).length = 3 ∧ scan hay4 nee1 = [⟨0, 0, 0, 15⟩] ∧
    (scan hay4 nee1).length = 1 := by decide

/-- C4 (amended): every window position with x < W - nw and y < H - nh is
scored; a scored candidate is inserted, preserving ascending diff order,
only when the list is empty or some stored candidate has a strictly
larger diff, and is otherwise dropped without insertion even when the
list is not full; when an insertion raises the size above K = 50 the
element removed is the last of the sorted list, a largest-diff element. -/
theorem C4_insertion_behavior :
    (∀ W H nw nh x y, (x, y) ∈ scanPositions W H nw nh ↔ x < W - nw ∧ y < H - nh)
    ∧ (∀ (itm : Item) (l : List Item), l ≠ [] → l.length ≤ 50 →
        (∀ c ∈ l, c.diff ≤ itm.diff) → step itm l = l)
    ∧ (∀ (itm : Item) (l : List Item), l.Pairwise leD → (step itm l).Pairwise leD)
    ∧ (∀ (itm : Item) (l : List Item), (l = [] ∨ ∃ c ∈ l, itm.diff < c.diff) →
        (preInsert itm l).Perm (itm :: l))
    ∧ (∀ (itm : Item) (l : List Item), l.Pairwise leD →
        50 < (preInsert itm l).length →
        step itm l = (preInsert itm l).dropLast ∧
        ∀ m ∈ (preInsert itm l).getLast?, ∀ c ∈ preInsert itm l, c.diff ≤ m.diff) := by
  refine ⟨?_, ?_, ?_, ?_, ?_⟩
  · intro W H nw nh x y
    exact mem_positionsAux
  · exact step_of_forall_le
  · exact pairwise_step_le
  · exact preInsert_perm
  · intro itm l hp hgt
    refine ⟨?_, pairwise_le_getLast (pairwise_preInsert_le itm l hp)⟩
    simp only [step]
    rw [if_pos hgt]

/-- Witness for the insertion behavior at a concrete input: a candidate
with diff 5 arriving at a one-element list holding diff 0 is dropped. -/
theorem C4_witness :
    step ⟨5, 1, 0, 20⟩ [⟨0, 0, 0, 15⟩] = [⟨0, 0, 0, 15⟩] :=
  C4_insertion_behavior.2.1 ⟨5, 1, 0, 20⟩ [⟨0, 0, 0, 15⟩] (by decide) (by decide) (by decide)

lemma pairwise_tryInsert_stable (f : Item → Nat) (itm : Item) :
    ∀ {l : List Item}, l.Pairwise (stableLe f) → (∀ c ∈ l, f c < f itm) →
      (tryInsert itm l).Pairwise (stableLe f) := by
  intro l
  induction l with
  | nil => intro _ _; simp [tryInsert]
  | cons c cs ih =>
    intro h hf
    rcases List.pairwise_cons.mp h with ⟨hc, hcs⟩
    rw [tryInsert]
    by_cases hlt : itm.diff < c.diff
    · rw [if_pos hlt]
      refine List.Pairwise.cons ?_ h
      intro d hd
      rcases List.mem_cons.mp hd with rfl | hd2
      · exact ⟨le_of_lt hlt, fun he => absurd he (ne_of_lt hlt)⟩
      · have hcd := hc d hd2
        exact ⟨le_trans (le_of_lt hlt) hcd.1,
          fun he => absurd he (ne_of_lt (lt_of_lt_of_le hlt hcd.1))⟩
    · rw [if_neg hlt]
      refine List.Pairwise.cons ?_ (ih hcs (fun d hd => hf d (List.mem_cons_of_mem c hd)))
      intro d hd
      rcases mem_tryInsert hd with rfl | hd2
      · exact ⟨not_lt.mp hlt, fun _ => hf c (List.mem_cons_self c cs)⟩
      · exact hc d hd2

lemma pairwise_preInsert_stable (f : Item → Nat) (itm : Item) (l : List Item)
    (h : l.Pairwise (stableLe f)) (hf : ∀ c ∈ l, f c < f itm) :
    (preInsert itm l).Pairwise (stableLe f) := by
  rw [preInsert]
  by_cases hl : l = []
  · rw [if_pos hl]; simp
  · rw [if_neg hl]; exact pairwise_tryInsert_stable f itm h hf

lemma pairwise_step_stable (f : Item → Nat) (itm : Item) (l : List Item)
    (h : l.Pairwise (stableLe f)) (hf : ∀ c ∈ l, f c < f itm) :
    (step itm l).Pairwise (stableLe f) := by
  simp only [step]
  by_cases hc : 50 < (preInsert itm l).length
  · rw [if_pos hc]
    exact (pairwise_preInsert_stable f itm l h hf).sublist (List.dropLast_sublist _)
  · rw [if_neg hc]
    exact pairwise_preInsert_stable f itm l h hf

lemma foldl_step_invariant (f : Item → Nat) :
    ∀ (items acc : List Item),
      acc.Pairwise (stableLe f) → acc.length ≤ 50 →
      (∀ c ∈ acc, ∀ i ∈ items, f c < f i) →
      items.Pairwise (fun a b => f a < f b) →
      (items.foldl (fun l itm => step itm l) acc).Pairwise (stableLe f) ∧
      (items.foldl (fun l itm => step itm l) acc).length ≤ 50
  | [], acc, hp, hl, _, _ => ⟨hp, hl⟩
  | itm :: rest, acc, hp, hl, hf, hpw => by
    rw [List.foldl_cons]
    rcases List.pairwise_cons.mp hpw with ⟨hitm, hrest⟩
    refine foldl_step_invariant f rest (step itm acc) ?_ (length_step_le itm acc hl) ?_ hrest
    · exact pairwise_step_stable f itm acc hp (fun c hc => hf c hc itm (List.mem_cons_self _ _))
    · intro c hc i hi
      rcases mem_step hc with rfl | hc2
      · exact hitm i hi
      · exact hf c hc2 i (List.mem_cons_of_mem _ hi)

lemma pairwise_positionsAux (n : Nat) :
    ∀ m : Nat, (positionsAux n m).Pairwise
      (fun p q : Nat × Nat => p.2 * n + p.1 < q.2 * n + q.1)
  | 0 => by simp [positionsAux]
  | m + 1 => by
    rw [positionsAux]
    refine List.pairwise_append.mpr ⟨pairwise_positionsAux n m, ?_, ?_⟩
    · rw [rowPositions]
      refine List.pairwise_map.mpr ?_
      refine (List.pairwise_lt_range n).imp ?_
      intro a b hab
      exact Nat.add_lt_add_left hab _
    · intro p hp q hq
      rcases p with ⟨px, py⟩
      have hpb := mem_positionsAux.mp hp
      simp only [rowPositions, List.mem_map, List.mem_range] at hq
      rcases hq with ⟨qx, hqx, rfl⟩
      calc py * n + px < py * n + n := Nat.add_lt_add_left hpb.1 _
        _ = (py + 1) * n := (Nat.succ_mul py n).symm
        _ ≤ m * n := Nat.mul_le_mul_right n hpb.2
        _ ≤ m * n + qx := Nat.le_add_right _ _

lemma mkItem_x (hay nee : Img) (x y : Nat) : (mkItem hay nee x y).x = x := rfl

lemma mkItem_y (hay nee : Img) (x y : Nat) : (mkItem hay nee x y).y = y := rfl

lemma pairwise_scanItems (hay nee : Img) :
    (scanItems hay nee).Pairwise (fun a b => posIdx hay nee a < posIdx hay nee b) := by
  rw [scanItems, scanPositions]
  refine List.pairwise_map.mpr ?_
  refine (pairwise_positionsAux (hay.w - nee.w) (hay.h - nee.h)).imp ?_
  intro p q h
  simpa [posIdx, mkItem_x, mkItem_y] using h

/-- C6: at every point during the scan, that is after any number n of
processed window positions, and in particular after the full scan, the
candidate list has length at most K = 50 and is pairwise ordered by
ascending diff with equal-diff candidates kept in their row-major
discovery order (stable, first-found stays earlier). -/
theorem C6_bounded_sorted_stable (hay nee : Img) :
    (∀ n : Nat,
      ((((scanItems hay nee).take n).foldl (fun l itm => step itm l) []).length ≤ 50 ∧
       (((scanItems hay nee).take n).foldl (fun l itm => step itm l) []).Pairwise
         (stableLe (posIdx hay nee))))
    ∧ ((scan hay nee).length ≤ 50 ∧
       (scan hay nee).Pairwise (stableLe (posIdx hay nee))) := by
  constructor
  · intro n
    have h := foldl_step_invariant (posIdx hay nee) ((scanItems hay nee).take n) []
      (by simp) (by simp) (by simp)
      ((pairwise_scanItems hay nee).sublist (List.take_sublist n _))
    exact ⟨h.2, h.1⟩
  · have h := foldl_step_invariant (posIdx hay nee) (scanItems hay nee) []
      (by simp) (by simp) (by simp)
      (pairwise_scanItems hay nee)
    exact ⟨h.2, h.1⟩

/-- C9: a scored candidate whose diff is greater than or equal to the diff
of every stored candidate is discarded without being inserted, even when
the list holds fewer than K = 50 elements; consequently the final list can
miss scored candidates while far below capacity, as the concrete scan of
hay4 shows: three candidates scored, only the first kept. -/
theorem C9_drop_without_insert :
    (∀ (itm : Item) (l : List Item), l ≠ [] → l.length ≤ 50 →
        (∀ c ∈ l, c.diff ≤ itm.diff) → step itm l = l)
    ∧ (scanItems hay4 nee1).length = 3 ∧ (scan hay4 nee1).length = 1 :=
  ⟨step_of_forall_le, by decide, by decide⟩

/-- Witness for the discard property at a concrete input: a diff 7
candidate arriving at a one-element list holding diff 3 is discarded. -/
theorem C9_witness :
    step ⟨7, 2, 0, 22⟩ [⟨3, 0, 0, 18⟩] = [⟨3, 0, 0, 18⟩] :=
  C9_drop_without_insert.1 ⟨7, 2, 0, 22⟩ [⟨3, 0, 0, 18⟩] (by decide) (by decide) (by decide)

lemma positionsAux_nil_of_zero (m : Nat) : positionsAux 0 m = [] := by
  induction m with
  | zero => rfl
  | succ m ih =>
    rw [positionsAux, ih, rowPositions]
    simp

/-- C7: with both images of nonzero area, when the needle is at least as
wide or at least as tall as the haystack, the scan range is empty, the
candidate list stays empty, the refinement loop has nothing to do, and
the result is confidence 0 with the sentinel location (-1, -1); the
operation is a total computation here, so no error of any kind arises. -/
theorem C7_oversized_needle (hay nee : Img)
    (hw : 0 < hay.w) (hh : 0 < hay.h) (hnw : 0 < nee.w) (hnh : 0 < nee.h)
    (hbig : hay.w ≤ nee.w ∨ hay.h ≤ nee.h) :
    scanPositions hay.w hay.h nee.w nee.h = [] ∧ scan hay nee = [] ∧
    matchRun hay nee = MatchRes.mk 0 (-1) (-1) := by
  have hpos : scanPositions hay.w hay.h nee.w nee.h = [] := by
    rw [scanPositions]
    rcases hbig with hb | hb
    · have hz : hay.w - nee.w = 0 := by omega
      rw [hz]
      exact positionsAux_nil_of_zero _
    · have hz : hay.h - nee.h = 0 := by omega
      rw [hz]
      rfl
  have hscan : scan hay nee = [] := by
    rw [scan, scanItems, hpos]
    rfl
  refine ⟨hpos, hscan, ?_⟩
  simp only [matchRun]
  rw [if_neg (by simp [hscan]), hscan]
  rfl

/-- Witness for C7 on a 2 by 2 haystack and a 3 by 3 needle. -/
theorem C7_witness :
    scanPositions hayS.w hayS.h neeB.w neeB.h = [] ∧ scan hayS neeB = [] ∧
    matchRun hayS neeB = MatchRes.mk 0 (-1) (-1) :=
  C7_oversized_needle hayS neeB (by decide) (by decide) (by decide) (by decide)
    (Or.inl (by decide))

lemma sad_le_maxSAD (hay nee : Img) (h1 : ∀ x y c, hay.pix x y c ≤ 255)
    (h2 : ∀ x y c, nee.pix x y c ≤ 255) (x y : Nat) :
    sad hay nee x y ≤ maxSAD nee := by
  rw [sad, maxSAD]
  calc ∑ j ∈ Finset.range nee.h, ∑ i ∈ Finset.range nee.w, ∑ c : Fin 3,
        ((hay.pix (x + i) (y + j) c : Int) - (nee.pix i j c : Int)).natAbs
      ≤ ∑ j ∈ Finset.range nee.h, ∑ i ∈ Finset.range nee.w, ∑ c : Fin 3, 255 := by
        refine Finset.sum_le_sum fun j _ => Finset.sum_le_sum fun i _ =>
          Finset.sum_le_sum fun c _ => ?_
        have ha := h1 (x + i) (y + j) c
        have hb := h2 i j c
        omega
    _ = nee.h * nee.w * 255 * 3 := by
        simp only [Finset.sum_const, Finset.card_range, Finset.card_univ,
          Fintype.card_fin, smul_eq_mul]
        ring

lemma bruteLoop_res_bounds (hay nee : Img)
    (hsad : ∀ x y, sad hay nee x y ≤ maxSAD nee) (hmax : 0 < maxSAD nee) :
    ∀ (l : List Item) (st : BState), 0 ≤ st.res → st.res ≤ 1 →
      0 ≤ (bruteLoop hay nee l st).res ∧ (bruteLoop hay nee l st).res ≤ 1
  | [], _, h0, h1 => ⟨h0, h1⟩
  | c :: cs, st, h0, h1 => by
    have hmQ : 0 < ((maxSAD nee : Nat) : Rat) := by exact_mod_cast hmax
    have hup : ((sad hay nee c.x c.y : Nat) : Rat) / ((maxSAD nee : Nat) : Rat) ≤ 1 := by
      rw [div_le_one hmQ]
      exact_mod_cast hsad c.x c.y
    have hdn : 0 ≤ ((sad hay nee c.x c.y : Nat) : Rat) / ((maxSAD nee : Nat) : Rat) := by
      positivity
    have hst2 : 0 ≤ (if sad hay nee c.x c.y < st.mn then
          BState.mk (sad hay nee c.x c.y) (c.x : Int) (c.y : Int)
            (1 - (sad hay nee c.x c.y : Rat) / (maxSAD nee : Rat))
        else st).res
        ∧ (if sad hay nee c.x c.y < st.mn then
          BState.mk (sad hay nee c.x c.y) (c.x : Int) (c.y : Int)
            (1 - (sad hay nee c.x c.y : Rat) / (maxSAD nee : Rat))
        else st).res ≤ 1 := by
      by_cases hlt : sad hay nee c.x c.y < st.mn
      · rw [if_pos hlt]
        constructor
        · show (0 : Rat) ≤ 1 - _
          linarith
        · show (1 : Rat) - _ ≤ 1
          linarith
      · rw [if_neg hlt]
        exact ⟨h0, h1⟩
    simp only [bruteLoop]
    by_cases hz : sad hay nee c.x c.y = 0
    · rw [if_pos hz]
      exact hst2
    · rw [if_neg hz]
      exact bruteLoop_res_bounds hay nee hsad hmax cs _ hst2.1 hst2.2

/-- C8: for images with channel values in 0..255 and nonzero area, when
the candidate list is nonempty, the SAD of every candidate window is at
most maxPossibleSAD = needle height times width times 255 times 3, and
the reported confidence lies in the interval [0, 1]. -/
theorem C8_confidence_bounds (hay nee : Img)
    (hhp : ∀ x y c, hay.pix x y c ≤ 255) (hnp : ∀ x y c, nee.pix x y c ≤ 255)
    (hw : 0 < hay.w) (hh : 0 < hay.h) (hnw : 0 < nee.w) (hnh : 0 < nee.h)
    (hne : scan hay nee ≠ []) :
    (∀ c ∈ scan hay nee, sad hay nee c.x c.y ≤ maxSAD nee)
    ∧ 0 ≤ (matchRun hay nee).confidence ∧ (matchRun hay nee).confidence ≤ 1 := by
  have hsad := sad_le_maxSAD hay nee hhp hnp
  have hmax : 0 < maxSAD nee := by
    rw [maxSAD]
    positivity
  refine ⟨fun c _ => hsad c.x c.y, ?_⟩
  simp only [matchRun]
  by_cases hcond : scan hay nee ≠ [] ∧ (scan hay nee).headI.diff = 0
  · rw [if_pos hcond]
    exact ⟨by norm_num, by norm_num⟩
  · rw [if_neg hcond]
    simp only [bruteForce]
    exact bruteLoop_res_bounds hay nee hsad hmax (scan hay nee)
      (BState.mk intMax (-1) (-1) 0) (by norm_num) (by norm_num)

/-- Witness for the confidence bounds on the concrete pair (hay2, nee1). -/
theorem C8_witness :
    0 ≤ (matchRun hay2 nee1).confidence ∧ (matchRun hay2 nee1).confidence ≤ 1 := by
  have h := C8_confidence_bounds hay2 nee1 ?_ ?_ (by decide) (by decide) (by decide)
    (by decide) (by decide)
  · exact h.2
  · intro x y c
    show (if x = 1 ∧ y = 1 then (5 : Nat) else 0) ≤ 255
    split
    · norm_num
    · norm_num
  · intro x y c
    show (5 : Nat) ≤ 255
    norm_num

lemma foldl_step_mem :
    ∀ (items acc : List Item) (d : Item),
      d ∈ items.foldl (fun l itm => step itm l) acc → d ∈ acc ∨ d ∈ items
  | [], _, _, h => Or.inl h
  | itm :: rest, acc, d, h => by
    rw [List.foldl_cons] at h
    rcases foldl_step_mem rest (step itm acc) d h with h2 | h2
    · rcases mem_step h2 with rfl | h3
      · exact Or.inr (List.mem_cons_self _ _)
      · exact Or.inl h3
    · exact Or.inr (List.mem_cons_of_mem _ h2)

lemma mem_scan_bounds (hay nee : Img) :
    ∀ c ∈ scan hay nee, c.x < hay.w - nee.w ∧ c.y < hay.h - nee.h := by
  intro c hc
  rw [scan] at hc
  rcases foldl_step_mem (scanItems hay nee) [] c hc with h | h
  · simp at h
  · rw [scanItems, scanPositions] at h
    rcases List.mem_map.mp h with ⟨p, hp, rfl⟩
    rcases p with ⟨px, py⟩
    have hb := mem_positionsAux.mp hp
    rw [mkItem_x, mkItem_y]
    exact hb

lemma bruteLoop_loc (hay nee : Img) :
    ∀ (l : List Item) (st : BState),
      ((bruteLoop hay nee l st).rx = st.rx ∧ (bruteLoop hay nee l st).ry = st.ry) ∨
      ∃ c ∈ l, (bruteLoop hay nee l st).rx = (c.x : Int) ∧
        (bruteLoop hay nee l st).ry = (c.y : Int)
  | [], _ => Or.inl ⟨rfl, rfl⟩
  | c :: cs, st => by
    simp only [bruteLoop]
    by_cases hz : sad hay nee c.x c.y = 0
    · rw [if_pos hz]
      by_cases hlt : sad hay nee c.x c.y < st.mn
      · rw [if_pos hlt]
        exact Or.inr ⟨c, List.mem_cons_self _ _, rfl, rfl⟩
      · rw [if_neg hlt]
        exact Or.inl ⟨rfl, rfl⟩
    · rw [if_neg hz]
      by_cases hlt : sad hay nee c.x c.y < st.mn
      · rw [if_pos hlt]
        rcases bruteLoop_loc hay nee cs (BState.mk (sad hay nee c.x c.y) (c.x : Int)
            (c.y : Int) (1 - (sad hay nee c.x c.y : Rat) / (maxSAD nee : Rat)))
          with h | ⟨d, hd, hd1, hd2⟩
        · exact Or.inr ⟨c, List.mem_cons_self _ _, h.1, h.2⟩
        · exact Or.inr ⟨d, List.mem_cons_of_mem _ hd, hd1, hd2⟩
      · rw [if_neg hlt]
        rcases bruteLoop_loc hay nee cs st with h | ⟨d, hd, hd1, hd2⟩
        · exact Or.inl h
        · exact Or.inr ⟨d, List.mem_cons_of_mem _ hd, hd1, hd2⟩

/-- C10: every candidate ever kept by the scan has coordinates inside the
scanned range, so every brute-force pixel read at (c.x + i, c.y + j) with
i below the needle width and j below the needle height stays inside the
haystack, and any reported non-sentinel location is the location of some
stored candidate, hence strictly inside the valid scan range. -/
theorem C10_safety (hay nee : Img) :
    (∀ c ∈ scan hay nee, c.x < hay.w - nee.w ∧ c.y < hay.h - nee.h)
    ∧ (∀ c ∈ scan hay nee, ∀ i < nee.w, ∀ j < nee.h,
        c.x + i < hay.w ∧ c.y + j < hay.h)
    ∧ ((matchRun hay nee).x ≠ -1 ∨ (matchRun hay nee).y ≠ -1 →
        ∃ c ∈ scan hay nee,
          (matchRun hay nee).x = (c.x : Int) ∧ (matchRun hay nee).y = (c.y : Int) ∧
          c.x < hay.w - nee.w ∧ c.y < hay.h - nee.h) := by
  refine ⟨mem_scan_bounds hay nee, ?_, ?_⟩
  · intro c hc i hi j hj
    have hb := mem_scan_bounds hay nee c hc
    omega
  · intro hsent
    simp only [matchRun] at hsent ⊢
    by_cases hcond : scan hay nee ≠ [] ∧ (scan hay nee).headI.diff = 0
    · rw [if_pos hcond]
      have hmem : (scan hay nee).headI ∈ scan hay nee := by
        rcases hl : scan hay nee with _ | ⟨c, rest⟩
        · exact absurd hl hcond.1
        · simp
      exact ⟨(scan hay nee).headI, hmem, rfl, rfl, mem_scan_bounds hay nee _ hmem⟩
    · rw [if_neg hcond] at hsent ⊢
      simp only [bruteForce] at hsent ⊢
      rcases bruteLoop_loc hay nee (scan hay nee) (BState.mk intMax (-1) (-1) 0)
        with h | ⟨d, hd, hd1, hd2⟩
      · exfalso
        rcases hsent with hx | hy
        · exact hx h.1
        · exact hy h.2
      · exact ⟨d, hd, hd1, hd2, mem_scan_bounds hay nee d hd⟩

/-- Witness for the reported-location part of the safety claim on the
concrete pair (hay2, nee1). -/
theorem C10_witness :
    ∃ c ∈ scan hay2 nee1,
      (matchRun hay2 nee1).x = (c.x : Int) ∧ (matchRun hay2 nee1).y = (c.y : Int) ∧
      c.x < hay2.w - nee1.w ∧ c.y < hay2.h - nee1.h :=
  (C10_safety hay2 nee1).2.2 (Or.inl (by decide))

/-- C2 (code bug): nee1 is copied verbatim into hay3 at (1, 1) - hay3
agrees with nee1 on that window and differs from it everywhere else - yet
the matching operation reports the perfect match at location (0, 0)
rather than (1, 1): the scan scores the window shifted one pixel right
and down, so the diff = 0 candidate carries the coordinates one pixel up
and left of the true copy. -/
theorem C2_bug_eval :
    (∀ i j : Fin 1, ∀ c : Fin 3,
        hay3.pix (1 + (i : Nat)) (1 + (j : Nat)) c = nee1.pix (i : Nat) (j : Nat) c)
    ∧ matchRun hay3 nee1 = MatchRes.mk 1 0 0 := by
  constructor
  · decide
  · decide

lemma bruteForce_hay2_eval :
    bruteForce hay2 nee1 (scan hay2 nee1) = MatchRes.mk (50 / 51) 0 0 := by
  have hs : sad hay2 nee1 0 0 = 15 := by decide
  have hscan : scan hay2 nee1 = [⟨0, 0, 0, 15⟩] := by decide
  have hmax : maxSAD nee1 = 765 := by decide
  rw [bruteForce, hscan]
  norm_num [bruteLoop, hs, hmax, intMax]

/-- C3 counterexample: on the pair (hay2, nee1) the candidate list is
nonempty and its first entry has diff 0, so the shortcut reports
confidence 1 at (0, 0), while running the brute-force refinement over
the same candidate list reports confidence 50/51 at (0, 0): the two
paths disagree, because a zero integral-sum difference does not imply a
zero pixel-level difference. -/
theorem C3_counterexample :
    (scan hay2 nee1 ≠ [] ∧ (scan hay2 nee1).headI.diff = 0)
    ∧ matchRun hay2 nee1 = MatchRes.mk 1 0 0
    ∧ bruteForce hay2 nee1 (scan hay2 nee1) = MatchRes.mk (50 / 51) 0 0
    ∧ matchRun hay2 nee1 ≠ bruteForce hay2 nee1 (scan hay2 nee1) := by
  have h1 : matchRun hay2 nee1 = MatchRes.mk 1 0 0 := by decide
  have h2 := bruteForce_hay2_eval
  refine ⟨by decide, h1, h2, ?_⟩
  rw [h1, h2]
  intro h
  have hcf : (1 : Rat) = 50 / 51 := congrArg MatchRes.confidence h
  norm_num at hcf

/-- C3 (amended): the diff = 0 shortcut returns the same match result the
brute-force refinement over the candidate list would return, provided the
pixel-level SAD of the first candidate is also zero; without that extra
hypothesis the agreement fails. -/
theorem C3_shortcut_agrees (hay nee : Img) (c : Item) (rest : List Item)
    (hscan : scan hay nee = c :: rest) (hdiff : c.diff = 0)
    (hsad : sad hay nee c.x c.y = 0) :
    matchRun hay nee = bruteForce hay nee (scan hay nee) := by
  have hloop : bruteLoop hay nee (scan hay nee) (BState.mk intMax (-1) (-1) 0)
      = BState.mk 0 (c.x : Int) (c.y : Int) 1 := by
    rw [hscan]
    simp only [bruteLoop, hsad]
    norm_num [intMax]
  have hb : bruteForce hay nee (scan hay nee) = MatchRes.mk 1 (c.x : Int) (c.y : Int) := by
    rw [bruteForce, hloop]
  have hm : matchRun hay nee = MatchRes.mk 1 (c.x : Int) (c.y : Int) := by
    simp only [matchRun]
    rw [hscan, if_pos ⟨List.cons_ne_nil c rest, hdiff⟩]
    rfl
  rw [hm, hb]

/-- Witness for the amended shortcut agreement on the uniform pair
(hayU, nee1), where the first candidate has both diff 0 and SAD 0. -/
theorem C3_witness :
    matchRun hayU nee1 = bruteForce hayU nee1 (scan hayU nee1) :=
  C3_shortcut_agrees hayU nee1 ⟨0, 0, 0, 15⟩ [] (by decide) (by decide) (by decide)

end Tpl
